import Mathlib

/-!
Shallow embedding of the spatial-statistics core of `refugia_analysis.py`:
`haversine_distance`, `compute_spatial_weights`, `calculate_morans_i` and
`permutation_test`.  Python floats are modelled as real numbers; Python
lists as Lean lists with out-of-range reads defaulting to `0`
(`List.getD`), matching the in-range accesses the code performs.
-/

namespace Refugia

noncomputable section

open Real

/-- Mirror of the `Language` NamedTuple (`code`, `name`, `latitude`,
`longitude`, `value`, `description`). -/
structure Language where
  code : String
  name : String
  latitude : ℝ
  longitude : ℝ
  value : ℤ
  description : String

instance : Inhabited Language := ⟨⟨"", "", 0, 0, 0, ""⟩⟩

/-- Python `math.radians`. -/
noncomputable def radians (x : ℝ) : ℝ := x * π / 180

/-- Python `math.atan2 y x` on real (non-NaN, unsigned-zero) inputs. -/
noncomputable def atan2 (y x : ℝ) : ℝ :=
  if 0 < x then Real.arctan (y / x)
  else if x < 0 then
    (if 0 ≤ y then Real.arctan (y / x) + π else Real.arctan (y / x) - π)
  else
    (if 0 < y then π / 2 else if y < 0 then -(π / 2) else 0)

/-- The intermediate quantity `a` of `haversine_distance` (the argument fed
to the square roots). -/
noncomputable def haversineA (lat1 lon1 lat2 lon2 : ℝ) : ℝ :=
  Real.sin (radians (lat2 - lat1) / 2) ^ 2 +
    Real.cos (radians lat1) * Real.cos (radians lat2) *
      Real.sin (radians (lon2 - lon1) / 2) ^ 2

/-- Embedding of `haversine_distance`: `R = 6371`,
`c = 2 * atan2 (sqrt a) (sqrt (1 - a))`, result `R * c`. -/
noncomputable def haversine_distance (lat1 lon1 lat2 lon2 : ℝ) : ℝ :=
  6371 * (2 * atan2 (Real.sqrt (haversineA lat1 lon1 lat2 lon2))
    (Real.sqrt (1 - haversineA lat1 lon1 lat2 lon2)))

/-- Gauss error function, used by the p-value formula
`p = 2 * (1 - 0.5 * (1 + erf (|z| / sqrt 2)))` of the source. -/
noncomputable def erf (x : ℝ) : ℝ :=
  (2 / Real.sqrt π) * ∫ t in (0:ℝ)..x, Real.exp (-t ^ 2)

/-- Python slicing `l[:k]` for an arbitrary integer `k` (a negative `k`
keeps all but the last `|k|` elements). -/
def pythonTake {α : Type} (k : ℤ) (l : List α) : List α :=
  if 0 ≤ k then l.take k.toNat else l.take (l.length - (-k).toNat)

/-- Comparison used by the sort of `compute_spatial_weights`
(`key=lambda x: x[1]`): compare candidate pairs by their distance. -/
def distLe (p q : ℕ × ℝ) : Prop := p.2 ≤ q.2

instance : DecidableRel distLe :=
  fun p q => inferInstanceAs (Decidable (p.2 ≤ q.2))

/-- The `distances` list built for point `i`: pairs `(j, dist)` for every
`j ≠ i`, in ascending order of `j` exactly as the loop produces them. -/
def candidates (languages : List Language) (i : ℕ) : List (ℕ × ℝ) :=
  ((List.range languages.length).filter (fun j => j ≠ i)).map (fun j =>
    (j, haversine_distance (languages.getD i default).latitude
      (languages.getD i default).longitude
      (languages.getD j default).latitude
      (languages.getD j default).longitude))

/-- The `neighbors` slice `distances.sort(key=...); distances[:k]`.
Python's sort is stable; it is modelled by insertion sort on the
distance-only comparison, which is stable for `≤`. -/
def neighbors (languages : List Language) (k : ℤ) (i : ℕ) : List (ℕ × ℝ) :=
  pythonTake k (List.insertionSort distLe (candidates languages i))

/-- Specification-side order on candidate pairs: ascending distance with
ties broken by ascending original index. -/
def lexLe (p q : ℕ × ℝ) : Prop := p.2 < q.2 ∨ (p.2 = q.2 ∧ p.1 ≤ q.1)

instance : IsAntisymm (ℕ × ℝ) lexLe := by
  refine ⟨fun a b hab hba => ?_⟩
  rcases hab with h1 | ⟨h1, h2⟩
  · rcases hba with h3 | ⟨h3, h4⟩
    · exact absurd h3 (not_lt.mpr (le_of_lt h1))
    · exact absurd h3 (ne_of_gt h1)
  · rcases hba with h3 | ⟨h3, h4⟩
    · exact absurd h3 (not_lt.mpr (le_of_eq h1))
    · exact Prod.ext_iff.mpr ⟨le_antisymm h2 h4, h1⟩

/-- Raw weight assigned to a neighbor at distance `dist`:
`1.0 / max(dist, 0.1)` in inverse-distance mode, else `1.0`. -/
def rawWeight (inverse_distance : Bool) (dist : ℝ) : ℝ :=
  if inverse_distance then 1 / max dist 0.1 else 1.0

/-- The assignment loop `for j, dist in neighbors: weights[i][j] = ...`,
starting from the all-zero row. -/
def assignRow (inverse_distance : Bool) (n : ℕ) (nbrs : List (ℕ × ℝ)) : List ℝ :=
  nbrs.foldl (fun row p => row.set p.1 (rawWeight inverse_distance p.2))
    (List.replicate n 0)

/-- Row standardization: `if row_sum > 0: divide each entry`. -/
def normalizeRow (row : List ℝ) : List ℝ :=
  if 0 < row.sum then row.map (fun w => w / row.sum) else row

/-- Embedding of `compute_spatial_weights`. -/
def compute_spatial_weights (languages : List Language) (k : ℤ)
    (inverse_distance : Bool) : List (List ℝ) :=
  (List.range languages.length).map (fun i =>
    normalizeRow (assignRow inverse_distance languages.length (neighbors languages k i)))

/-- Entry `weights[i][j]` (both indices in range in every use the code
makes; out-of-range reads default to `0`). -/
def wAt (weights : List (List ℝ)) (i j : ℕ) : ℝ :=
  (weights.getD i []).getD j 0

/-- Python `sum(values) / n`. -/
noncomputable def mean (values : List ℝ) : ℝ := values.sum / values.length

/-- The list of deviations `v - mean` (the code's `deviations`). -/
noncomputable def deviations (values : List ℝ) : List ℝ :=
  values.map (fun v => v - mean values)

/-- Deviation of entry `i` (the code's `deviations[i]`). -/
noncomputable def dAt (values : List ℝ) (i : ℕ) : ℝ :=
  (deviations values).getD i 0

/-- The code's `sum_sq_dev`. -/
noncomputable def sumSqDev (values : List ℝ) : ℝ :=
  ((deviations values).map (fun d => d ^ 2)).sum

/-- The code's `numerator`: double sum over `i ≠ j` of
`weights[i][j] * deviations[i] * deviations[j]`. -/
noncomputable def moranNumerator (values : List ℝ) (weights : List (List ℝ)) : ℝ :=
  ((List.range values.length).map (fun i =>
    ((List.range values.length).map (fun j =>
      if i ≠ j then wAt weights i j * dAt values i * dAt values j else 0)).sum)).sum

/-- The code's running total `W`: sum of `weights[i][j]` over `i ≠ j`,
`i, j < n`. -/
def wTotal (n : ℕ) (weights : List (List ℝ)) : ℝ :=
  ((List.range n).map (fun i =>
    ((List.range n).map (fun j => if i ≠ j then wAt weights i j else 0)).sum)).sum

/-- Python `sum(weights[i])` (sums the whole stored row). -/
def rowSum (weights : List (List ℝ)) (i : ℕ) : ℝ := (weights.getD i []).sum

/-- Python `sum(weights[j][i] for j in range(n))`. -/
def colSum (n : ℕ) (weights : List (List ℝ)) (i : ℕ) : ℝ :=
  ((List.range n).map (fun j => wAt weights j i)).sum

/-- The code's `S1` (after the final halving); the diagonal terms are
included, exactly as in the double loop of the source. -/
def statS1 (n : ℕ) (weights : List (List ℝ)) : ℝ :=
  (((List.range n).map (fun i =>
    ((List.range n).map (fun j => (wAt weights i j + wAt weights j i) ^ 2)).sum)).sum) / 2

/-- The code's `S2`. -/
def statS2 (n : ℕ) (weights : List (List ℝ)) : ℝ :=
  ((List.range n).map (fun i => (rowSum weights i + colSum n weights i) ^ 2)).sum

/-- The code's kurtosis proxy `b2 = m4 / m2**2 if m2 > 0 else 3.0`. -/
noncomputable def kurtB2 (values : List ℝ) : ℝ :=
  let n : ℝ := values.length
  let m2 := sumSqDev values / n
  let m4 := ((deviations values).map (fun d => d ^ 4)).sum / n
  if 0 < m2 then m4 / m2 ^ 2 else 3.0

/-- The statistic `I = (n / W) * (numerator / sum_sq_dev)`. -/
noncomputable def moransIStat (values : List ℝ) (weights : List (List ℝ)) : ℝ :=
  ((values.length : ℝ) / wTotal values.length weights) *
    (moranNumerator values weights / sumSqDev values)

/-- The code's `E_I = -1.0 / (n - 1)`. -/
noncomputable def expectedI (n : ℕ) : ℝ := -1 / ((n : ℝ) - 1)

/-- The code's `A = n * ((n**2 - 3*n + 3) * S1 - n * S2 + 3 * W**2)`. -/
noncomputable def varTermA (n : ℕ) (weights : List (List ℝ)) : ℝ :=
  let W := wTotal n weights
  (n : ℝ) * (((n : ℝ) ^ 2 - 3 * (n : ℝ) + 3) * statS1 n weights
    - (n : ℝ) * statS2 n weights + 3 * W ^ 2)

/-- The code's `B = b2 * ((n**2 - n) * S1 - 2*n * S2 + 6 * W**2)`. -/
noncomputable def varTermB (values : List ℝ) (weights : List (List ℝ)) : ℝ :=
  let n := values.length
  let W := wTotal n weights
  kurtB2 values * (((n : ℝ) ^ 2 - (n : ℝ)) * statS1 n weights
    - 2 * (n : ℝ) * statS2 n weights + 6 * W ^ 2)

/-- The code's `C = (n - 1) * (n - 2) * (n - 3) * W**2`. -/
noncomputable def varTermC (n : ℕ) (weights : List (List ℝ)) : ℝ :=
  ((n : ℝ) - 1) * ((n : ℝ) - 2) * ((n : ℝ) - 3) * wTotal n weights ^ 2

/-- The code's `var_I = (A - B) / C - E_I**2`. -/
noncomputable def varI (values : List ℝ) (weights : List (List ℝ)) : ℝ :=
  (varTermA values.length weights - varTermB values weights) / varTermC values.length weights
    - expectedI values.length ^ 2

/-- The code's `z = (I - E_I) / math.sqrt(var_I)`. -/
noncomputable def zScore (values : List ℝ) (weights : List (List ℝ)) : ℝ :=
  (moransIStat values weights - expectedI values.length) / Real.sqrt (varI values weights)

/-- The code's `p = 2 * (1 - 0.5 * (1 + math.erf(abs z / math.sqrt 2)))`. -/
noncomputable def pValue (values : List ℝ) (weights : List (List ℝ)) : ℝ :=
  2 * (1 - 0.5 * (1 + erf (|zScore values weights| / Real.sqrt 2)))

/-- Embedding of `calculate_morans_i`.  The `languages` argument is
received and, exactly as in the source, never read (`n = len(values)`).
Branch structure mirrors the five early returns of the code. -/
noncomputable def calculate_morans_i (languages : List Language)
    (values : List ℝ) (weights : List (List ℝ)) : ℝ × ℝ × ℝ :=
  let _ := languages
  let n := values.length
  if n < 3 then (0, 0, 1)
  else if sumSqDev values = 0 then (0, 0, 1)
  else if wTotal n weights = 0 then (0, 0, 1)
  else if varTermC n weights = 0 then (moransIStat values weights, 0, 1)
  else if varI values weights ≤ 0 then (moransIStat values weights, 0, 1)
  else (moransIStat values weights, zScore values weights, pValue values weights)

/-- Embedding of `permutation_test`.  Python's `random.shuffle` draws are
modelled by the stream `shuffles`: `shuffles t` is the shuffled copy of
`values` produced in trial `t`.  `n_permutations` is an integer as in
Python (`range` of a non-positive count is empty); the returned p-value is
`(more_extreme + 1) / (n_permutations + 1)`. -/
noncomputable def permutation_test (languages : List Language)
    (values : List ℝ) (weights : List (List ℝ)) (n_permutations : ℤ)
    (shuffles : ℕ → List ℝ) : ℝ × ℝ :=
  let observed_I := (calculate_morans_i languages values weights).1
  let more_extreme := (List.range n_permutations.toNat).countP
    (fun t => decide (|(calculate_morans_i languages (shuffles t) weights).1| ≥ |observed_I|))
  (observed_I, ((more_extreme : ℝ) + 1) / ((n_permutations : ℝ) + 1))

/-- The spec's erf-based standard normal CDF `Φ(x) = 0.5 (1 + erf (x/√2))`,
written from the spec's words for comparison with the code's p-value. -/
def stdNormalCDF (x : ℝ) : ℝ := 0.5 * (1 + erf (x / Real.sqrt 2))

/-- Two concrete points one degree of longitude apart. -/
def twoPts : List Language := [⟨"", "", 0, 0, 0, ""⟩, ⟨"", "", 0, 1, 0, ""⟩]

/-- Cyclic 5-node row-standardized weights matrix (each node's two ring
neighbors at weight 1/2), a concrete non-degenerate input. -/
def cyc5 : List (List ℝ) :=
  [[0, 1/2, 0, 0, 1/2], [1/2, 0, 1/2, 0, 0], [0, 1/2, 0, 1/2, 0],
   [0, 0, 1/2, 0, 1/2], [1/2, 0, 0, 1/2, 0]]

/-- Clustered labels of the spec's concrete scenario A. -/
def valsA : List ℝ := [1, 1, 1, 0, 0]

/-- Interleaved labels of the spec's concrete scenario B. -/
def valsB : List ℝ := [1, 0, 1, 0, 1]

/-- Kilometers per degree of arc along a great circle (`6371 * π / 180`). -/
def degKm : ℝ := 6371 * π / 180

/-- The five points of the spec's concrete scenarios: longitudes 0..4 on
the equator. -/
def langs9 : List Language :=
  [⟨"", "", 0, 0, 0, ""⟩, ⟨"", "", 0, 1, 0, ""⟩, ⟨"", "", 0, 2, 0, ""⟩,
   ⟨"", "", 0, 3, 0, ""⟩, ⟨"", "", 0, 4, 0, ""⟩]

/-- The row-standardized k-nearest-neighbor matrix that
`compute_spatial_weights langs9 2 true` produces (proved below): the
inverse-distance scale factor cancels under row normalization. -/
def wmat9 : List (List ℝ) :=
  [[0, 2/3, 1/3, 0, 0], [1/2, 0, 1/2, 0, 0], [0, 1/2, 0, 1/2, 0],
   [0, 0, 1/2, 0, 1/2], [0, 0, 1/3, 2/3, 0]]

/-! ### Distance Engine -/

theorem atan2_pos_x (y x : ℝ) (hx : 0 < x) : atan2 y x = Real.arctan (y / x) := by
  simp [atan2, hx]

theorem atan2_nonneg {y x : ℝ} (hy : 0 ≤ y) (hx : 0 ≤ x) : 0 ≤ atan2 y x := by
  unfold atan2
  split_ifs with h1 h2 h3 h4
  · rw [← Real.arctan_zero]
    exact Real.arctan_strictMono.monotone (div_nonneg hy (le_of_lt h1))
  · linarith
  · linarith [Real.pi_pos]
  · linarith
  · exact le_refl 0

theorem haversineA_eq_cos_form (lat1 lon1 lat2 lon2 : ℝ) :
    haversineA lat1 lon1 lat2 lon2 =
      (1 - (Real.sin (radians lat1) * Real.sin (radians lat2) +
        Real.cos (radians lat1) * Real.cos (radians lat2) *
          Real.cos (radians (lon2 - lon1)))) / 2 := by
  have hsub : radians (lat2 - lat1) = radians lat2 - radians lat1 := by
    unfold radians; ring
  have hhalf : ∀ t : ℝ, 2 * (t / 2) = t := fun t => by ring
  have hs1 : Real.sin (radians (lat2 - lat1) / 2) ^ 2 =
      1 / 2 - Real.cos (radians lat2 - radians lat1) / 2 := by
    rw [hsub, Real.sin_sq_eq_half_sub, hhalf]
  have hs2 : Real.sin (radians (lon2 - lon1) / 2) ^ 2 =
      1 / 2 - Real.cos (radians (lon2 - lon1)) / 2 := by
    rw [Real.sin_sq_eq_half_sub, hhalf]
  unfold haversineA
  rw [hs1, hs2, Real.cos_sub]
  ring

theorem haversineA_mem_Icc (lat1 lon1 lat2 lon2 : ℝ) :
    0 ≤ haversineA lat1 lon1 lat2 lon2 ∧ haversineA lat1 lon1 lat2 lon2 ≤ 1 := by
  rw [haversineA_eq_cos_form]
  set s1 := Real.sin (radians lat1)
  set s2 := Real.sin (radians lat2)
  set c1 := Real.cos (radians lat1)
  set c2 := Real.cos (radians lat2)
  set cd := Real.cos (radians (lon2 - lon1))
  have hp1 : s1 ^ 2 + c1 ^ 2 = 1 := Real.sin_sq_add_cos_sq (radians lat1)
  have hp2 : s2 ^ 2 + c2 ^ 2 = 1 := Real.sin_sq_add_cos_sq (radians lat2)
  have hcd1 : cd ≤ 1 := Real.cos_le_one _
  have hcd2 : -1 ≤ cd := Real.neg_one_le_cos _
  have hA1 : s1 * s2 + c1 * c2 ≤ 1 := by
    nlinarith [sq_nonneg (s1 - s2), sq_nonneg (c1 - c2)]
  have hB1 : s1 * s2 - c1 * c2 ≤ 1 := by
    nlinarith [sq_nonneg (s1 - s2), sq_nonneg (c1 + c2)]
  have hA2 : -1 ≤ s1 * s2 + c1 * c2 := by
    nlinarith [sq_nonneg (s1 + s2), sq_nonneg (c1 + c2)]
  have hB2 : -1 ≤ s1 * s2 - c1 * c2 := by
    nlinarith [sq_nonneg (s1 + s2), sq_nonneg (c1 - c2)]
  constructor
  · nlinarith [mul_nonneg (by linarith : (0:ℝ) ≤ 1 + cd)
        (by linarith : (0:ℝ) ≤ 1 - (s1 * s2 + c1 * c2)),
      mul_nonneg (by linarith : (0:ℝ) ≤ 1 - cd)
        (by linarith : (0:ℝ) ≤ 1 - (s1 * s2 - c1 * c2))]
  · nlinarith [mul_nonneg (by linarith : (0:ℝ) ≤ 1 + cd)
        (by linarith : (0:ℝ) ≤ 1 + (s1 * s2 + c1 * c2)),
      mul_nonneg (by linarith : (0:ℝ) ≤ 1 - cd)
        (by linarith : (0:ℝ) ≤ 1 + (s1 * s2 - c1 * c2))]

theorem haversine_distance_nonneg (lat1 lon1 lat2 lon2 : ℝ) :
    0 ≤ haversine_distance lat1 lon1 lat2 lon2 := by
  unfold haversine_distance
  have h := atan2_nonneg (Real.sqrt_nonneg (haversineA lat1 lon1 lat2 lon2))
    (Real.sqrt_nonneg (1 - haversineA lat1 lon1 lat2 lon2))
  positivity

theorem haversine_distance_self (lat lon : ℝ) :
    haversine_distance lat lon lat lon = 0 := by
  have hA : haversineA lat lon lat lon = 0 := by
    unfold haversineA radians
    simp
  unfold haversine_distance
  rw [hA]
  norm_num [atan2_pos_x, Real.arctan_zero]

/-! ### Weights Builder: basic lemmas -/

theorem getD_set_self (l : List ℝ) (i : ℕ) (a : ℝ) (h : i < l.length) :
    (l.set i a).getD i 0 = a := by
  rw [List.getD_eq_getElem _ _ (by simpa using h)]
  exact List.getElem_set_self (by simpa using h)

theorem getD_set_ne (l : List ℝ) (i j : ℕ) (a : ℝ) (hne : i ≠ j) :
    (l.set i a).getD j 0 = l.getD j 0 := by
  simp [List.getD, List.get?_eq_getElem?, List.getElem?_set_ne hne]

theorem getD_nonneg (l : List ℝ) (h : ∀ x ∈ l, 0 ≤ x) (i : ℕ) : 0 ≤ l.getD i 0 := by
  rcases lt_or_ge i l.length with hi | hi
  · rw [List.getD_eq_getElem _ _ hi]
    exact h _ (List.getElem_mem hi)
  · rw [List.getD_eq_default _ _ hi]

theorem rawWeight_pos (inv : Bool) (d : ℝ) : 0 < rawWeight inv d := by
  unfold rawWeight
  split_ifs
  · have h1 : (0:ℝ) < max d 0.1 := lt_max_of_lt_right (by norm_num)
    positivity
  · norm_num

theorem assignRow_foldl_length (inv : Bool) (nbrs : List (ℕ × ℝ)) :
    ∀ row : List ℝ,
      (nbrs.foldl (fun r p => r.set p.1 (rawWeight inv p.2)) row).length = row.length := by
  induction nbrs with
  | nil => intro row; rfl
  | cons p t ih => intro row; rw [List.foldl_cons, ih, List.length_set]

theorem assignRow_length (inv : Bool) (n : ℕ) (nbrs : List (ℕ × ℝ)) :
    (assignRow inv n nbrs).length = n := by
  unfold assignRow
  rw [assignRow_foldl_length, List.length_replicate]

theorem assignRow_foldl_nonneg (inv : Bool) (nbrs : List (ℕ × ℝ)) :
    ∀ row : List ℝ, (∀ x ∈ row, 0 ≤ x) →
      ∀ x ∈ nbrs.foldl (fun r p => r.set p.1 (rawWeight inv p.2)) row, 0 ≤ x := by
  induction nbrs with
  | nil => intro row h; exact h
  | cons p t ih =>
      intro row h x hx
      refine ih (row.set p.1 (rawWeight inv p.2)) ?_ x hx
      intro y hy
      rcases List.mem_or_eq_of_mem_set hy with hy2 | rfl
      · exact h y hy2
      · exact le_of_lt (rawWeight_pos inv p.2)

theorem assignRow_nonneg (inv : Bool) (n : ℕ) (nbrs : List (ℕ × ℝ)) :
    ∀ x ∈ assignRow inv n nbrs, 0 ≤ x :=
  assignRow_foldl_nonneg inv nbrs _
    (fun x hx => le_of_eq (List.eq_of_mem_replicate hx).symm)

theorem assignRow_foldl_getD (inv : Bool) (i : ℕ) (nbrs : List (ℕ × ℝ))
    (hne : ∀ p ∈ nbrs, p.1 ≠ i) :
    ∀ row : List ℝ,
      (nbrs.foldl (fun r p => r.set p.1 (rawWeight inv p.2)) row).getD i 0 =
        row.getD i 0 := by
  induction nbrs with
  | nil => intro row; rfl
  | cons p t ih =>
      intro row
      rw [List.foldl_cons, ih (fun q hq => hne q (List.mem_cons_of_mem p hq)),
        getD_set_ne _ _ _ _ (hne p (List.mem_cons_self p t))]

theorem mem_neighbors (langs : List Language) (k : ℤ) (i : ℕ) :
    ∀ p ∈ neighbors langs k i, p.1 ≠ i ∧ p.1 < langs.length := by
  intro p hp
  have h1 : p ∈ List.insertionSort distLe (candidates langs i) := by
    unfold neighbors pythonTake at hp
    split_ifs at hp <;> exact List.mem_of_mem_take hp
  have h2 : p ∈ candidates langs i := (List.mem_insertionSort distLe).mp h1
  unfold candidates at h2
  simp only [List.mem_map, List.mem_filter, List.mem_range,
    decide_eq_true_eq] at h2
  obtain ⟨j, ⟨hjr, hji⟩, rfl⟩ := h2
  exact ⟨hji, hjr⟩

theorem map_div_getD (row : List ℝ) (s : ℝ) (i : ℕ) :
    (row.map (fun w => w / s)).getD i 0 = row.getD i 0 / s := by
  rcases lt_or_ge i row.length with h | h
  · rw [List.getD_eq_getElem _ _ (by simpa using h), List.getD_eq_getElem _ _ h,
      List.getElem_map]
  · rw [List.getD_eq_default _ _ (by simpa using h), List.getD_eq_default _ _ h,
      zero_div]

theorem sum_map_div (row : List ℝ) (s : ℝ) :
    (row.map (fun w => w / s)).sum = row.sum / s := by
  induction row with
  | nil => simp
  | cons a t ih => simp [ih, add_div]

theorem normalizeRow_sum (row : List ℝ) (h : 0 < row.sum) :
    (normalizeRow row).sum = 1 := by
  unfold normalizeRow
  rw [if_pos h, sum_map_div, div_self (ne_of_gt h)]

theorem normalizeRow_getD_zero (row : List ℝ) (i : ℕ) (h : row.getD i 0 = 0) :
    (normalizeRow row).getD i 0 = 0 := by
  unfold normalizeRow
  split_ifs with hs
  · rw [map_div_getD, h, zero_div]
  · exact h

theorem normalizeRow_mem_nonneg (row : List ℝ) (hrow : ∀ x ∈ row, 0 ≤ x) :
    ∀ x ∈ normalizeRow row, 0 ≤ x := by
  unfold normalizeRow
  split_ifs with hs
  · intro x hx
    obtain ⟨w, hw, rfl⟩ := List.mem_map.mp hx
    exact div_nonneg (hrow w hw) (le_of_lt hs)
  · exact hrow

theorem normalizeRow_length (row : List ℝ) :
    (normalizeRow row).length = row.length := by
  unfold normalizeRow
  split_ifs <;> simp

theorem assignRow_sum_pos (inv : Bool) (n : ℕ) (nbrs : List (ℕ × ℝ))
    (hlt : ∀ p ∈ nbrs, p.1 < n) (hne : nbrs ≠ []) :
    0 < (assignRow inv n nbrs).sum := by
  unfold assignRow
  suffices h : ∀ (nb : List (ℕ × ℝ)), nb ≠ [] → (∀ p ∈ nb, p.1 < n) →
      ∀ row : List ℝ, row.length = n → (∀ x ∈ row, 0 ≤ x) →
      0 < (nb.foldl (fun r p => r.set p.1 (rawWeight inv p.2)) row).sum by
    exact h nbrs hne hlt _ (List.length_replicate n 0)
      (fun x hx => le_of_eq (List.eq_of_mem_replicate hx).symm)
  intro nb
  induction nb with
  | nil => intro h; exact absurd rfl h
  | cons p t ih =>
      intro _ hlt2 row hrl hrow
      rw [List.foldl_cons]
      have hpl : p.1 < row.length := by
        rw [hrl]; exact hlt2 p (List.mem_cons_self p t)
      have hnn : ∀ x ∈ row.set p.1 (rawWeight inv p.2), 0 ≤ x := by
        intro y hy
        rcases List.mem_or_eq_of_mem_set hy with hy2 | rfl
        · exact hrow y hy2
        · exact le_of_lt (rawWeight_pos inv p.2)
      rcases eq_or_ne t [] with rfl | ht
      · simp only [List.foldl_nil]
        have hlen : p.1 < (row.set p.1 (rawWeight inv p.2)).length := by
          rw [List.length_set]; exact hpl
        have hmem : rawWeight inv p.2 ∈ row.set p.1 (rawWeight inv p.2) := by
          have hmem2 := List.getElem_mem hlen
          rwa [List.getElem_set_self hlen] at hmem2
        calc (0:ℝ) < rawWeight inv p.2 := rawWeight_pos inv p.2
          _ ≤ _ := List.single_le_sum hnn _ hmem
      · exact ih ht (fun q hq => hlt2 q (List.mem_cons_of_mem p hq)) _
          (by rw [List.length_set]; exact hrl) hnn

theorem filter_ne_range_length :
    ∀ (n i : ℕ), i < n →
      ((List.range n).filter (fun j => j ≠ i)).length = n - 1 := by
  intro n
  induction n with
  | zero => intro i h; exact absurd h (Nat.not_lt_zero i)
  | succ m ih =>
      intro i hi
      rw [List.range_succ, List.filter_append, List.length_append]
      rcases eq_or_ne i m with rfl | hne
      · have h1 : (List.range i).filter (fun j => j ≠ i) = List.range i := by
          apply List.filter_eq_self.mpr
          intro a ha
          simp [Nat.ne_of_lt (List.mem_range.mp ha)]
        have h2 : ([i].filter (fun j => j ≠ i)) = [] := by simp
        rw [h1, h2]
        simp
      · have him : i < m := by omega
        have h2 : ([m].filter (fun j => j ≠ i)) = [m] := by
          simp [Ne.symm hne]
        rw [ih i him, h2]
        simp
        omega

theorem candidates_length (langs : List Language) (i : ℕ) (hi : i < langs.length) :
    (candidates langs i).length = langs.length - 1 := by
  unfold candidates
  rw [List.length_map, filter_ne_range_length _ _ hi]

theorem neighbors_ne_nil (langs : List Language) (k : ℤ) (i : ℕ)
    (hk : 1 ≤ k) (hn : 2 ≤ langs.length) (hi : i < langs.length) :
    neighbors langs k i ≠ [] := by
  unfold neighbors pythonTake
  rw [if_pos (by omega : (0:ℤ) ≤ k)]
  intro hcon
  have hlen := congrArg List.length hcon
  rw [List.length_take, List.length_insertionSort,
    candidates_length langs i hi] at hlen
  simp only [List.length_nil] at hlen
  have hk1 : 1 ≤ k.toNat := by omega
  omega

theorem compute_length (langs : List Language) (k : ℤ) (inv : Bool) :
    (compute_spatial_weights langs k inv).length = langs.length := by
  unfold compute_spatial_weights
  rw [List.length_map, List.length_range]

theorem compute_row (langs : List Language) (k : ℤ) (inv : Bool) (i : ℕ)
    (hi : i < langs.length) :
    (compute_spatial_weights langs k inv).getD i [] =
      normalizeRow (assignRow inv langs.length (neighbors langs k i)) := by
  unfold compute_spatial_weights
  rw [List.getD_eq_getElem _ _ (by simpa using hi)]
  rw [List.getElem_map, List.getElem_range]

theorem getD_replicate (n i : ℕ) : (List.replicate n (0:ℝ)).getD i 0 = 0 := by
  rcases lt_or_ge i n with h | h
  · rw [List.getD_eq_getElem _ _ (by simpa using h), List.getElem_replicate]
  · rw [List.getD_eq_default _ _ (by simpa using h)]

/-- C4: every matrix produced by `compute_spatial_weights` has an exactly
zero diagonal and non-negative entries; for `k ≥ 1` and at least two
points every row sums to exactly 1 (hence within `1e-9` of 1.0); and for
`k ≥ 1` a row of an in-range point can be all-zero only when the point
set has fewer than 2 points. -/
theorem c4_weights_matrix_invariant :
    ∀ (langs : List Language) (k : ℤ) (inv : Bool),
      (∀ i, ((compute_spatial_weights langs k inv).getD i []).getD i 0 = 0) ∧
      (∀ i j, 0 ≤ ((compute_spatial_weights langs k inv).getD i []).getD j 0) ∧
      (∀ i, i < langs.length → 1 ≤ k → 2 ≤ langs.length →
        ((compute_spatial_weights langs k inv).getD i []).sum = 1 ∧
        |((compute_spatial_weights langs k inv).getD i []).sum - 1| ≤ 1e-9) ∧
      (∀ i, i < langs.length → 1 ≤ k →
        (∀ j, ((compute_spatial_weights langs k inv).getD i []).getD j 0 = 0) →
        langs.length < 2) := by
  intro langs k inv
  have hsum1 : ∀ i, i < langs.length → 1 ≤ k → 2 ≤ langs.length →
      ((compute_spatial_weights langs k inv).getD i []).sum = 1 := by
    intro i hi hk hn
    rw [compute_row langs k inv i hi]
    exact normalizeRow_sum _ (assignRow_sum_pos inv langs.length _
      (fun p hp => (mem_neighbors langs k i p hp).2)
      (neighbors_ne_nil langs k i hk hn hi))
  refine ⟨?_, ?_, ?_, ?_⟩
  · intro i
    rcases lt_or_ge i langs.length with hi | hi
    · rw [compute_row langs k inv i hi]
      apply normalizeRow_getD_zero
      unfold assignRow
      rw [assignRow_foldl_getD inv i _ (fun p hp => (mem_neighbors langs k i p hp).1)]
      exact getD_replicate _ _
    · have hrow : (compute_spatial_weights langs k inv).getD i [] = [] :=
        List.getD_eq_default _ _ (by rw [compute_length]; exact hi)
      rw [hrow]
      rfl
  · intro i j
    rcases lt_or_ge i langs.length with hi | hi
    · rw [compute_row langs k inv i hi]
      exact getD_nonneg _ (normalizeRow_mem_nonneg _ (assignRow_nonneg inv _ _)) j
    · have hrow : (compute_spatial_weights langs k inv).getD i [] = [] :=
        List.getD_eq_default _ _ (by rw [compute_length]; exact hi)
      rw [hrow]
      exact le_refl 0
  · intro i hi hk hn
    refine ⟨hsum1 i hi hk hn, ?_⟩
    rw [hsum1 i hi hk hn]
    norm_num
  · intro i hi hk hall
    by_contra hcon
    push_neg at hcon
    have h1 := hsum1 i hi hk hcon
    have h0 : ((compute_spatial_weights langs k inv).getD i []).sum = 0 := by
      apply List.sum_eq_zero
      intro x hx
      obtain ⟨j, hj, rfl⟩ := List.mem_iff_getElem.mp hx
      have hj2 := hall j
      rwa [List.getD_eq_getElem _ _ hj] at hj2
    linarith

theorem c4_weights_matrix_invariant_witness :
    ((compute_spatial_weights twoPts 1 true).getD 0 []).getD 0 0 = 0 ∧
    0 ≤ ((compute_spatial_weights twoPts 1 true).getD 0 []).getD 1 0 ∧
    ((compute_spatial_weights twoPts 1 true).getD 0 []).sum = 1 ∧
    |((compute_spatial_weights twoPts 1 true).getD 0 []).sum - 1| ≤ 1e-9 :=
  ⟨(c4_weights_matrix_invariant twoPts 1 true).1 0,
   (c4_weights_matrix_invariant twoPts 1 true).2.1 0 1,
   ((c4_weights_matrix_invariant twoPts 1 true).2.2.1 0 (by norm_num [twoPts])
     (by norm_num) (by norm_num [twoPts])).1,
   ((c4_weights_matrix_invariant twoPts 1 true).2.2.1 0 (by norm_num [twoPts])
     (by norm_num) (by norm_num [twoPts])).2⟩

/-! ### Weights Builder: neighbor ordering (stability of the sort) -/

theorem orderedInsert_lexSorted (a : ℕ × ℝ) :
    ∀ l : List (ℕ × ℝ), l.Sorted lexLe → (∀ b ∈ l, a.1 < b.1) →
      (l.orderedInsert distLe a).Sorted lexLe := by
  intro l
  induction l with
  | nil =>
      intro _ _
      exact List.sorted_singleton a
  | cons b t ih =>
      intro hs ha
      rw [List.orderedInsert]
      by_cases hab : distLe a b
      · rw [if_pos hab]
        apply List.sorted_cons.mpr
        refine ⟨?_, hs⟩
        intro c hc
        rcases List.mem_cons.mp hc with rfl | hct
        · rcases lt_or_eq_of_le hab with h | h
          · exact Or.inl h
          · exact Or.inr ⟨h, le_of_lt (ha c (List.mem_cons_self c t))⟩
        · have hbc := List.rel_of_sorted_cons hs c hct
          have hac2 : a.2 ≤ c.2 := by
            rcases hbc with h | ⟨h, _⟩
            · exact le_trans hab (le_of_lt h)
            · exact le_trans hab (le_of_eq h)
          rcases lt_or_eq_of_le hac2 with h | h
          · exact Or.inl h
          · exact Or.inr ⟨h, le_of_lt (ha c (List.mem_cons_of_mem b hct))⟩
      · rw [if_neg hab]
        have hba : b.2 < a.2 := not_le.mp hab
        apply List.sorted_cons.mpr
        constructor
        · intro c hc
          rcases (List.mem_orderedInsert distLe).mp hc with rfl | hct
          · exact Or.inl hba
          · exact List.rel_of_sorted_cons hs c hct
        · exact ih hs.of_cons (fun c hc => ha c (List.mem_cons_of_mem b hc))

theorem insertionSort_lexSorted :
    ∀ l : List (ℕ × ℝ), l.Pairwise (fun p q => p.1 < q.1) →
      (List.insertionSort distLe l).Sorted lexLe := by
  intro l
  induction l with
  | nil =>
      intro _
      exact List.sorted_nil
  | cons a t ih =>
      intro hp
      rw [List.insertionSort]
      apply orderedInsert_lexSorted
      · exact ih hp.of_cons
      · intro b hb
        exact List.rel_of_pairwise_cons hp ((List.mem_insertionSort distLe).mp hb)

theorem candidates_pairwise_fst (langs : List Language) (i : ℕ) :
    (candidates langs i).Pairwise (fun p q => p.1 < q.1) := by
  unfold candidates
  refine List.Pairwise.map _ (fun a b hab => hab) ?_
  exact ((List.pairwise_lt_range langs.length).filter _)

/-- C5: the sorted candidate list is a permutation of the candidate list
that is sorted for the (distance, original index) lexicographic order —
the stable-sort characterization — and it is the unique such permutation;
the selected neighbors are its first `k` entries, `min k (N-1)` of them;
and the builder is deterministic (identical inputs give identical
matrices). -/
theorem c5_neighbor_order (langs : List Language) (k : ℤ) (i : ℕ)
    (hi : i < langs.length) (hk : 1 ≤ k) :
    (List.insertionSort distLe (candidates langs i)).Perm (candidates langs i) ∧
    (List.insertionSort distLe (candidates langs i)).Sorted lexLe ∧
    neighbors langs k i = (List.insertionSort distLe (candidates langs i)).take k.toNat ∧
    (neighbors langs k i).length = min k.toNat (langs.length - 1) ∧
    (∀ l2 : List (ℕ × ℝ), l2.Perm (candidates langs i) → l2.Sorted lexLe →
      neighbors langs k i = l2.take k.toNat) ∧
    (∀ inv : Bool, compute_spatial_weights langs k inv =
      compute_spatial_weights langs k inv) := by
  have hperm2 := List.perm_insertionSort distLe (candidates langs i)
  have hsorted := insertionSort_lexSorted _ (candidates_pairwise_fst langs i)
  have htake : neighbors langs k i =
      (List.insertionSort distLe (candidates langs i)).take k.toNat := by
    unfold neighbors pythonTake
    rw [if_pos (by omega : (0:ℤ) ≤ k)]
  refine ⟨hperm2, hsorted, htake, ?_, ?_, fun _ => rfl⟩
  · rw [htake, List.length_take, List.length_insertionSort,
      candidates_length langs i hi]
  · intro l2 hl2perm hl2sorted
    have : l2 = List.insertionSort distLe (candidates langs i) :=
      List.eq_of_perm_of_sorted (hl2perm.trans hperm2.symm) hl2sorted hsorted
    rw [htake, this]

theorem c5_neighbor_order_witness :
    (List.insertionSort distLe (candidates twoPts 0)).Perm (candidates twoPts 0) ∧
    (List.insertionSort distLe (candidates twoPts 0)).Sorted lexLe ∧
    neighbors twoPts 1 0 = (List.insertionSort distLe (candidates twoPts 0)).take (1:ℤ).toNat ∧
    (neighbors twoPts 1 0).length = min (1:ℤ).toNat (twoPts.length - 1) ∧
    (∀ l2 : List (ℕ × ℝ), l2.Perm (candidates twoPts 0) → l2.Sorted lexLe →
      neighbors twoPts 1 0 = l2.take (1:ℤ).toNat) ∧
    (∀ inv : Bool, compute_spatial_weights twoPts 1 inv =
      compute_spatial_weights twoPts 1 inv) :=
  c5_neighbor_order twoPts 1 0 (by norm_num [twoPts]) (by norm_num)

/-! ### Branch structure of `calculate_morans_i` -/

theorem morans_degenerate (langs : List Language) (values : List ℝ)
    (weights : List (List ℝ))
    (h : values.length < 3 ∨ sumSqDev values = 0 ∨ wTotal values.length weights = 0) :
    calculate_morans_i langs values weights = (0, 0, 1) := by
  rcases h with h | h | h <;> simp [calculate_morans_i, h]

theorem morans_fst (langs : List Language) (values : List ℝ)
    (weights : List (List ℝ)) (h3 : ¬ values.length < 3)
    (hs : sumSqDev values ≠ 0) (hW : wTotal values.length weights ≠ 0) :
    (calculate_morans_i langs values weights).1 = moransIStat values weights := by
  unfold calculate_morans_i
  simp only [h3, hs, hW, if_false, if_neg]
  split_ifs <;> rfl

theorem morans_fallback (langs : List Language) (values : List ℝ)
    (weights : List (List ℝ)) (h3 : ¬ values.length < 3)
    (hs : sumSqDev values ≠ 0) (hW : wTotal values.length weights ≠ 0)
    (h : varTermC values.length weights = 0 ∨ varI values weights ≤ 0) :
    calculate_morans_i langs values weights = (moransIStat values weights, 0, 1) := by
  unfold calculate_morans_i
  simp only [h3, hs, hW, if_false, if_neg]
  rcases h with h | h
  · simp [h]
  · split_ifs <;> simp_all

theorem morans_main (langs : List Language) (values : List ℝ)
    (weights : List (List ℝ)) (h3 : ¬ values.length < 3)
    (hs : sumSqDev values ≠ 0) (hW : wTotal values.length weights ≠ 0)
    (hC : varTermC values.length weights ≠ 0) (hv : 0 < varI values weights) :
    calculate_morans_i langs values weights =
      (moransIStat values weights, zScore values weights, pValue values weights) := by
  unfold calculate_morans_i
  simp [h3, hs, hW, hC, not_le.mpr hv]

theorem sumSqDev_pos_of_ne {values : List ℝ} {a b : ℝ}
    (ha : a ∈ values) (hb : b ∈ values) (hab : a ≠ b) :
    0 < sumSqDev values := by
  have hkey : a - mean values ≠ 0 ∨ b - mean values ≠ 0 := by
    by_contra hcon
    push_neg at hcon
    exact hab (by linarith [sub_eq_zero.mp hcon.1, sub_eq_zero.mp hcon.2])
  have main : ∀ c ∈ values, c - mean values ≠ 0 → 0 < sumSqDev values := by
    intro c hc hcne
    have hmem : (c - mean values) ^ 2 ∈ (deviations values).map (fun d => d ^ 2) := by
      simp only [deviations, List.map_map, List.mem_map, Function.comp]
      exact ⟨c, hc, rfl⟩
    have hnn : ∀ x ∈ (deviations values).map (fun d => d ^ 2), 0 ≤ x := by
      intro x hx
      simp only [List.mem_map] at hx
      obtain ⟨d, _, rfl⟩ := hx
      positivity
    exact lt_of_lt_of_le (pow_two_pos_of_ne_zero hcne)
      (List.single_le_sum hnn _ hmem)
  rcases hkey with h | h
  · exact main a ha h
  · exact main b hb h

/-! ### Claim theorems: Autocorrelation Calculator -/

/-- C1: for a value vector of length `N ≥ 3` that is not constant and a
weights matrix with nonzero total weight, the first component returned by
`calculate_morans_i` is `(N / W_total) * (Σ_{i≠j} w_ij d_i d_j / Σ_i d_i²)`. -/
theorem c1_morans_i_formula (langs : List Language) (values : List ℝ)
    (weights : List (List ℝ)) (hlen : 3 ≤ values.length)
    (hnc : ∃ a ∈ values, ∃ b ∈ values, a ≠ b)
    (hW : wTotal values.length weights ≠ 0) :
    (calculate_morans_i langs values weights).1 =
      ((values.length : ℝ) / wTotal values.length weights) *
        (moranNumerator values weights / sumSqDev values) := by
  obtain ⟨a, ha, b, hb, hab⟩ := hnc
  exact morans_fst langs values weights (not_lt.mpr hlen)
    (ne_of_gt (sumSqDev_pos_of_ne ha hb hab)) hW

/-- C2: the degenerate inputs (`N < 3`, constant vector, zero total
weight) all yield the normally returned triple `(0, 0, 1)`, and when
instead `C = 0` or `var(I) ≤ 0` the result is `(I, 0, 1)` with `I` the
computed statistic. -/
theorem c2_degenerate_returns :
    (∀ (langs : List Language) (values : List ℝ) (weights : List (List ℝ)),
      values.length < 3 ∨ sumSqDev values = 0 ∨ wTotal values.length weights = 0 →
      calculate_morans_i langs values weights = (0, 0, 1)) ∧
    (∀ (langs : List Language) (values : List ℝ) (weights : List (List ℝ)),
      3 ≤ values.length → sumSqDev values ≠ 0 → wTotal values.length weights ≠ 0 →
      varTermC values.length weights = 0 ∨ varI values weights ≤ 0 →
      calculate_morans_i langs values weights = (moransIStat values weights, 0, 1)) := by
  refine ⟨morans_degenerate, fun langs values weights h3 hs hW h => ?_⟩
  exact morans_fallback langs values weights (not_lt.mpr h3) hs hW h

/-- C10: `calculate_morans_i` never reads its `languages` argument; the
result is a pure function of the value vector and the weights matrix. -/
theorem c10_pure_in_values_weights :
    ∀ (langs1 langs2 : List Language) (values : List ℝ) (weights : List (List ℝ)),
      calculate_morans_i langs1 values weights =
        calculate_morans_i langs2 values weights := by
  intro langs1 langs2 values weights
  rfl

/-- C3: on the non-degenerate path (`N ≥ 4`, non-constant values, nonzero
total weight, `C ≠ 0`, `var(I) > 0`) the function returns exactly
`I`, `z = (I - E[I]) / sqrt(var I)` with `E[I] = -1/(N-1)`, and the
two-tailed erf-based p-value `2 (1 - Φ(|z|))`, where
`var(I) = (A - B)/C - E[I]²`. -/
theorem c3_analytic_significance (langs : List Language) (values : List ℝ)
    (weights : List (List ℝ)) (hlen : 4 ≤ values.length)
    (hnc : ∃ a ∈ values, ∃ b ∈ values, a ≠ b)
    (hW : wTotal values.length weights ≠ 0)
    (hC : varTermC values.length weights ≠ 0)
    (hv : 0 < varI values weights) :
    calculate_morans_i langs values weights =
      (moransIStat values weights,
        (moransIStat values weights - (-1 / ((values.length : ℝ) - 1))) /
          Real.sqrt (varI values weights),
        2 * (1 - stdNormalCDF |zScore values weights|)) ∧
    expectedI values.length = -1 / ((values.length : ℝ) - 1) ∧
    varI values weights =
      (varTermA values.length weights - varTermB values weights) /
        varTermC values.length weights - expectedI values.length ^ 2 := by
  obtain ⟨a, ha, b, hb, hab⟩ := hnc
  have hs : sumSqDev values ≠ 0 := ne_of_gt (sumSqDev_pos_of_ne ha hb hab)
  have h3 : ¬ values.length < 3 := not_lt.mpr (by omega)
  refine ⟨?_, rfl, rfl⟩
  rw [morans_main langs values weights h3 hs hW hC hv]
  rfl

theorem c1_morans_i_formula_witness :
    (calculate_morans_i [] [1, 0, 0] [[0, 1, 0], [0, 0, 1], [1, 0, 0]]).1 =
      ((([1, 0, 0] : List ℝ).length : ℝ) /
          wTotal ([1, 0, 0] : List ℝ).length [[0, 1, 0], [0, 0, 1], [1, 0, 0]]) *
        (moranNumerator [1, 0, 0] [[0, 1, 0], [0, 0, 1], [1, 0, 0]] /
          sumSqDev [1, 0, 0]) :=
  c1_morans_i_formula [] [1, 0, 0] [[0, 1, 0], [0, 0, 1], [1, 0, 0]] (by norm_num)
    ⟨1, by norm_num, 0, by norm_num, one_ne_zero⟩
    (by norm_num [wTotal, wAt, List.range_succ])

theorem c2_degenerate_returns_witness :
    calculate_morans_i [] [1, 0] [[0, 1], [1, 0]] = (0, 0, 1) ∧
    calculate_morans_i [] [1, 0, 0] [[0, 1, 0], [0, 0, 1], [1, 0, 0]] =
      (moransIStat [1, 0, 0] [[0, 1, 0], [0, 0, 1], [1, 0, 0]], 0, 1) :=
  ⟨c2_degenerate_returns.1 [] [1, 0] [[0, 1], [1, 0]] (Or.inl (by norm_num)),
   c2_degenerate_returns.2 [] [1, 0, 0] [[0, 1, 0], [0, 0, 1], [1, 0, 0]]
     (by norm_num) (by norm_num [sumSqDev, deviations, mean])
     (by norm_num [wTotal, wAt, List.range_succ])
     (Or.inl (by norm_num [varTermC]))⟩

theorem c3_analytic_significance_witness :
    calculate_morans_i [] valsA cyc5 =
      (moransIStat valsA cyc5,
        (moransIStat valsA cyc5 - (-1 / ((valsA.length : ℝ) - 1))) /
          Real.sqrt (varI valsA cyc5),
        2 * (1 - stdNormalCDF |zScore valsA cyc5|)) ∧
    expectedI valsA.length = -1 / ((valsA.length : ℝ) - 1) ∧
    varI valsA cyc5 =
      (varTermA valsA.length cyc5 - varTermB valsA cyc5) /
        varTermC valsA.length cyc5 - expectedI valsA.length ^ 2 :=
  c3_analytic_significance [] valsA cyc5 (by norm_num [valsA])
    ⟨1, by norm_num [valsA], 0, by norm_num [valsA], one_ne_zero⟩
    (by norm_num [valsA, wTotal, wAt, cyc5, List.range_succ])
    (by norm_num [valsA, varTermC, wTotal, wAt, cyc5, List.range_succ])
    (by norm_num [valsA, varI, varTermA, varTermB, varTermC, expectedI, kurtB2,
      sumSqDev, deviations, mean, statS1, statS2, rowSum, colSum, wTotal, wAt,
      cyc5, List.range_succ])

/-- C6: for coordinates satisfying the Point invariant, the square-root
argument `a` of `haversine_distance` always lies in `[0, 1]` — so the
spec's clamp of `a` to `[0, 1]` is the identity, both square roots receive
non-negative arguments (the domain-error branch is unreachable) and the
function is total; moreover the output is non-negative and identical
coordinate pairs yield exactly 0. -/
theorem c6_haversine_stability :
    (∀ lat1 lon1 lat2 lon2 : ℝ,
      -90 ≤ lat1 ∧ lat1 ≤ 90 ∧ -180 ≤ lon1 ∧ lon1 ≤ 180 →
      -90 ≤ lat2 ∧ lat2 ≤ 90 ∧ -180 ≤ lon2 ∧ lon2 ≤ 180 →
      0 ≤ haversineA lat1 lon1 lat2 lon2 ∧
      haversineA lat1 lon1 lat2 lon2 ≤ 1 ∧
      min 1 (max 0 (haversineA lat1 lon1 lat2 lon2)) = haversineA lat1 lon1 lat2 lon2 ∧
      0 ≤ 1 - haversineA lat1 lon1 lat2 lon2 ∧
      0 ≤ haversine_distance lat1 lon1 lat2 lon2) ∧
    (∀ lat lon : ℝ, haversine_distance lat lon lat lon = 0) := by
  refine ⟨fun lat1 lon1 lat2 lon2 _ _ => ?_, haversine_distance_self⟩
  obtain ⟨h0, h1⟩ := haversineA_mem_Icc lat1 lon1 lat2 lon2
  exact ⟨h0, h1, by rw [max_eq_right h0, min_eq_right h1], by linarith,
    haversine_distance_nonneg lat1 lon1 lat2 lon2⟩

theorem c6_haversine_stability_witness :
    0 ≤ haversineA 10 20 (-45) 170 ∧
    haversineA 10 20 (-45) 170 ≤ 1 ∧
    min 1 (max 0 (haversineA 10 20 (-45) 170)) = haversineA 10 20 (-45) 170 ∧
    0 ≤ 1 - haversineA 10 20 (-45) 170 ∧
    0 ≤ haversine_distance 10 20 (-45) 170 :=
  c6_haversine_stability.1 10 20 (-45) 170 (by norm_num) (by norm_num)

/-! ### Claim theorems: Permutation Tester -/

/-- C7: `permutation_test` returns the observed statistic and the add-one
corrected empirical p-value `(count + 1) / (M + 1)`, where `count` is the
number of trials whose permuted statistic is at least as extreme in
absolute value; the p-value is strictly positive, hence never exactly 0. -/
theorem c7_empirical_pvalue (langs : List Language) (values : List ℝ)
    (weights : List (List ℝ)) (shuffles : ℕ → List ℝ) (M : ℤ) (hM : 0 ≤ M)
    (hperm : ∀ t, (shuffles t).Perm values) :
    (permutation_test langs values weights M shuffles).1 =
      (calculate_morans_i langs values weights).1 ∧
    (permutation_test langs values weights M shuffles).2 =
      (((List.range M.toNat).countP (fun t =>
          decide (|(calculate_morans_i langs (shuffles t) weights).1| ≥
            |(calculate_morans_i langs values weights).1|)) : ℝ) + 1) / ((M : ℝ) + 1) ∧
    0 < (permutation_test langs values weights M shuffles).2 := by
  refine ⟨rfl, rfl, ?_⟩
  have hden : (0 : ℝ) < (M : ℝ) + 1 := by
    have : (0 : ℝ) ≤ (M : ℝ) := by exact_mod_cast hM
    linarith
  have hnum : (0 : ℝ) < (((List.range M.toNat).countP (fun t =>
      decide (|(calculate_morans_i langs (shuffles t) weights).1| ≥
        |(calculate_morans_i langs values weights).1|)) : ℝ) + 1) := by
    positivity
  exact div_pos hnum hden

theorem c7_empirical_pvalue_witness :
    (permutation_test [] [1, 0] [[0, 1], [1, 0]] 1 (fun _ => [1, 0])).1 =
      (calculate_morans_i [] [1, 0] [[0, 1], [1, 0]]).1 ∧
    (permutation_test [] [1, 0] [[0, 1], [1, 0]] 1 (fun _ => [1, 0])).2 =
      (((List.range (1 : ℤ).toNat).countP (fun t =>
          decide (|(calculate_morans_i [] ((fun _ : ℕ => ([1, 0] : List ℝ)) t)
              [[0, 1], [1, 0]]).1| ≥
            |(calculate_morans_i [] [1, 0] [[0, 1], [1, 0]]).1|)) : ℝ) + 1) /
        (((1 : ℤ) : ℝ) + 1) ∧
    0 < (permutation_test [] [1, 0] [[0, 1], [1, 0]] 1 (fun _ => [1, 0])).2 :=
  c7_empirical_pvalue [] [1, 0] [[0, 1], [1, 0]] (fun _ => [1, 0]) 1
    (by norm_num) (fun _ => List.Perm.refl _)

/-- C8 counterexample: with `k = 0 < 1` the Weights Builder returns a
normal all-zero matrix (the invalid `k` is silently absorbed by the
slice), and with `M = 0 < 1` the Permutation Tester returns a normal
result `(observed I, 1.0)`; neither call fails with a configuration
error. -/
theorem c8_counterexample :
    compute_spatial_weights [⟨"", "", 0, 0, 0, ""⟩, ⟨"", "", 0, 0, 0, ""⟩] 0 true =
      [[0, 0], [0, 0]] ∧
    permutation_test [] [1, 2, 3] [[0, 1, 0], [0, 0, 1], [1, 0, 0]] 0
        (fun _ => [1, 2, 3]) =
      ((calculate_morans_i [] [1, 2, 3] [[0, 1, 0], [0, 0, 1], [1, 0, 0]]).1, 1) := by
  constructor
  · simp [compute_spatial_weights, neighbors, pythonTake, assignRow, normalizeRow,
      List.range_succ, List.replicate]
  · simp [permutation_test]

/-- C8 amended: no validation of `k` or `M` exists.  A call with `k = 0`
returns the all-zero (never normalized) matrix, and a call with `M = 0`
runs no trials and returns the observed statistic with empirical p-value
exactly 1; both return normally instead of failing. -/
theorem c8_amended_no_validation :
    (∀ (langs : List Language) (inv : Bool),
      compute_spatial_weights langs 0 inv =
        (List.range langs.length).map (fun _ => List.replicate langs.length 0)) ∧
    (∀ (langs : List Language) (values : List ℝ) (weights : List (List ℝ))
      (shuffles : ℕ → List ℝ),
      permutation_test langs values weights 0 shuffles =
        ((calculate_morans_i langs values weights).1, 1)) := by
  constructor
  · intro langs inv
    unfold compute_spatial_weights
    refine List.map_congr_left (fun i _ => ?_)
    have hnb : neighbors langs 0 i = [] := by
      simp [neighbors, pythonTake]
    rw [hnb]
    simp [assignRow, normalizeRow]
  · intro langs values weights shuffles
    simp [permutation_test]


/-! ### Concrete scenarios of the spec (C9) -/

theorem haversine_lat0 (a b : ℝ) (h : |b - a| < 180) :
    haversine_distance 0 a 0 b = 6371 * π / 180 * |b - a| := by
  set t := radians (b - a) / 2 with ht
  have hA : haversineA 0 a 0 b = Real.sin t ^ 2 := by
    simp [haversineA, radians, ht]
  have htabs : |t| < π / 2 := by
    rw [ht]
    unfold radians
    rw [abs_div, abs_of_pos (by norm_num : (0:ℝ) < 2), abs_div,
      abs_of_pos (by norm_num : (0:ℝ) < 180), abs_mul,
      abs_of_pos Real.pi_pos]
    rw [div_lt_iff (by norm_num : (0:ℝ) < 2), div_lt_iff (by norm_num : (0:ℝ) < 180)]
    nlinarith [Real.pi_pos, abs_nonneg (b - a)]
  have hcos : 0 < Real.cos t :=
    Real.cos_pos_of_mem_Ioo ⟨by cases abs_lt.mp htabs with | intro h1 h2 => linarith,
      by cases abs_lt.mp htabs with | intro h1 h2 => linarith⟩
  have hsqrt1 : Real.sqrt (haversineA 0 a 0 b) = |Real.sin t| := by
    rw [hA, Real.sqrt_sq_eq_abs]
  have hsqrt2 : Real.sqrt (1 - haversineA 0 a 0 b) = Real.cos t := by
    rw [hA]
    have h1 : 1 - Real.sin t ^ 2 = Real.cos t ^ 2 := by
      have := Real.sin_sq_add_cos_sq t
      linarith
    rw [h1, Real.sqrt_sq_eq_abs, abs_of_pos hcos]
  have hsinabs : |Real.sin t| = Real.sin |t| := by
    rcases le_or_lt 0 t with h1 | h1
    · rw [abs_of_nonneg h1, abs_of_nonneg (Real.sin_nonneg_of_nonneg_of_le_pi h1
        (by linarith [Real.pi_pos, (abs_lt.mp htabs).2, abs_of_nonneg h1]))]
    · rw [abs_of_neg h1, Real.sin_neg,
        abs_of_nonpos (Real.sin_nonpos_of_nonnpos_of_neg_pi_le (le_of_lt h1)
          (by linarith [Real.pi_pos, (abs_lt.mp htabs).1, abs_of_neg h1]))]
  have harct : atan2 |Real.sin t| (Real.cos t) = |t| := by
    rw [atan2_pos_x _ _ hcos, hsinabs, ← Real.cos_abs t,
      ← Real.tan_eq_sin_div_cos, Real.arctan_tan (by linarith [abs_nonneg t, Real.pi_pos]) htabs]
  rw [haversine_distance, hsqrt1, hsqrt2, harct, ht]
  unfold radians
  rw [abs_div, abs_of_pos (by norm_num : (0:ℝ) < 2), abs_div,
    abs_of_pos (by norm_num : (0:ℝ) < 180), abs_mul, abs_of_pos Real.pi_pos]
  ring

theorem hav9 (a b : ℝ) (h1 : |b - a| < 180) :
    haversine_distance 0 a 0 b = degKm * |b - a| := by
  rw [haversine_lat0 a b h1, degKm]

theorem degKm_pos : 0 < degKm := by
  unfold degKm
  positivity

theorem degKm_big : (0.1 : ℝ) ≤ degKm := by
  unfold degKm
  nlinarith [Real.pi_gt_three]

theorem cands9_0 : candidates langs9 0 =
    [(1, degKm * 1), (2, degKm * 2), (3, degKm * 3), (4, degKm * 4)] := by
  norm_num [candidates, langs9, List.range_succ, hav9]

theorem sort9_0 : List.insertionSort distLe
    [(1, degKm * 1), (2, degKm * 2), (3, degKm * 3), (4, degKm * 4)] =
    [(1, degKm * 1), (2, degKm * 2), (3, degKm * 3), (4, degKm * 4)] := by
  norm_num [List.insertionSort, List.orderedInsert, distLe,
    (by nlinarith [degKm_pos] : degKm ≤ degKm * 2),
    (by nlinarith [degKm_pos] : degKm * 2 ≤ degKm * 3),
    (by nlinarith [degKm_pos] : degKm * 3 ≤ degKm * 4)]

theorem nbrs9_0 : neighbors langs9 2 0 = [(1, degKm * 1), (2, degKm * 2)] := by
  rw [neighbors, cands9_0, sort9_0]
  rfl



theorem row9_0 : normalizeRow (assignRow true 5 (neighbors langs9 2 0)) =
    [0, 2/3, 1/3, 0, 0] := by
  rw [nbrs9_0]
  have hmax1 : max (degKm * 1) 0.1 = degKm * 1 := max_eq_left (by linarith [degKm_big])
  have hmax2 : max (degKm * 2) 0.1 = degKm * 2 :=
    max_eq_left (by linarith [degKm_big, degKm_pos])
  have hd2 : (0.1:ℝ) ≤ degKm * 2 := by linarith [degKm_big, degKm_pos]
  have hassign : assignRow true 5 [(1, degKm * 1), (2, degKm * 2)] =
      [0, 1 / (degKm * 1), 1 / (degKm * 2), 0, 0] := by
    simp [assignRow, rawWeight, List.replicate, hmax1, hmax2, degKm_big, hd2]
  rw [hassign]
  have hne : degKm ≠ 0 := ne_of_gt degKm_pos
  have hsum : ([0, 1 / (degKm * 1), 1 / (degKm * 2), 0, 0] : List ℝ).sum = 3 / (degKm * 2) := by
    simp [List.sum_cons]
    field_simp
    ring
  unfold normalizeRow
  rw [hsum, if_pos (div_pos (by norm_num) (by linarith [degKm_pos]))]
  simp only [List.map_cons, List.map_nil]
  norm_num
  try (repeat' apply And.intro)
  all_goals (field_simp; try ring)


theorem cands9_1 : candidates langs9 1 = [(0, degKm * 1), (2, degKm * 1), (3, degKm * 2), (4, degKm * 3)] := by
  norm_num [candidates, langs9, List.range_succ, hav9]

theorem sort9_1x : List.insertionSort distLe [(0, degKm * 1), (2, degKm * 1), (3, degKm * 2), (4, degKm * 3)] = [(0, degKm * 1), (2, degKm * 1), (3, degKm * 2), (4, degKm * 3)] := by
  norm_num [List.insertionSort, List.orderedInsert, distLe,
    (by nlinarith [degKm_pos] : degKm ≤ degKm * 2),
    (by nlinarith [degKm_pos] : degKm * 2 ≤ degKm * 3),
    (by nlinarith [degKm_pos] : degKm * 3 ≤ degKm * 4),
    (by nlinarith [degKm_pos] : ¬ (degKm * 2 ≤ degKm)),
    (by nlinarith [degKm_pos] : ¬ (degKm * 3 ≤ degKm)),
    (by nlinarith [degKm_pos] : ¬ (degKm * 3 ≤ degKm * 2)),
    (by nlinarith [degKm_pos] : ¬ (degKm * 4 ≤ degKm)),
    (by nlinarith [degKm_pos] : ¬ (degKm * 4 ≤ degKm * 2)),
    (by nlinarith [degKm_pos] : ¬ (degKm * 4 ≤ degKm * 3))]

theorem nbrs9_1 : neighbors langs9 2 1 = [(0, degKm * 1), (2, degKm * 1)] := by
  rw [neighbors, cands9_1, sort9_1x]
  rfl

theorem row9_1 : normalizeRow (assignRow true 5 (neighbors langs9 2 1)) = [1/2, 0, 1/2, 0, 0] := by
  rw [nbrs9_1]
  have hmax1 : max (degKm * 1) 0.1 = degKm * 1 := max_eq_left (by linarith [degKm_big])
  have hmax2 : max (degKm * 2) 0.1 = degKm * 2 :=
    max_eq_left (by linarith [degKm_big, degKm_pos])
  have hd1 : (0.1:ℝ) ≤ degKm * 1 := by linarith [degKm_big]
  have hd2 : (0.1:ℝ) ≤ degKm * 2 := by linarith [degKm_big, degKm_pos]
  have hassign : assignRow true 5 [(0, degKm * 1), (2, degKm * 1)] = [1 / (degKm * 1), 0, 1 / (degKm * 1), 0, 0] := by
    simp [assignRow, rawWeight, List.replicate, hmax1, hmax2, degKm_big, hd1, hd2]
  rw [hassign]
  have hne : degKm ≠ 0 := ne_of_gt degKm_pos
  have hsum : ([1 / (degKm * 1), 0, 1 / (degKm * 1), 0, 0] : List ℝ).sum = 2 / (degKm * 1) := by
    simp [List.sum_cons]
    field_simp
    try ring
    try norm_num
  unfold normalizeRow
  rw [hsum, if_pos (div_pos (by norm_num) (by linarith [degKm_pos]))]
  simp only [List.map_cons, List.map_nil]
  norm_num
  try (repeat' apply And.intro)
  all_goals (field_simp; try ring)

theorem cands9_2 : candidates langs9 2 = [(0, degKm * 2), (1, degKm * 1), (3, degKm * 1), (4, degKm * 2)] := by
  norm_num [candidates, langs9, List.range_succ, hav9]

theorem sort9_2x : List.insertionSort distLe [(0, degKm * 2), (1, degKm * 1), (3, degKm * 1), (4, degKm * 2)] = [(1, degKm * 1), (3, degKm * 1), (0, degKm * 2), (4, degKm * 2)] := by
  norm_num [List.insertionSort, List.orderedInsert, distLe,
    (by nlinarith [degKm_pos] : degKm ≤ degKm * 2),
    (by nlinarith [degKm_pos] : degKm * 2 ≤ degKm * 3),
    (by nlinarith [degKm_pos] : degKm * 3 ≤ degKm * 4),
    (by nlinarith [degKm_pos] : ¬ (degKm * 2 ≤ degKm)),
    (by nlinarith [degKm_pos] : ¬ (degKm * 3 ≤ degKm)),
    (by nlinarith [degKm_pos] : ¬ (degKm * 3 ≤ degKm * 2)),
    (by nlinarith [degKm_pos] : ¬ (degKm * 4 ≤ degKm)),
    (by nlinarith [degKm_pos] : ¬ (degKm * 4 ≤ degKm * 2)),
    (by nlinarith [degKm_pos] : ¬ (degKm * 4 ≤ degKm * 3))]

theorem nbrs9_2 : neighbors langs9 2 2 = [(1, degKm * 1), (3, degKm * 1)] := by
  rw [neighbors, cands9_2, sort9_2x]
  rfl

theorem row9_2 : normalizeRow (assignRow true 5 (neighbors langs9 2 2)) = [0, 1/2, 0, 1/2, 0] := by
  rw [nbrs9_2]
  have hmax1 : max (degKm * 1) 0.1 = degKm * 1 := max_eq_left (by linarith [degKm_big])
  have hmax2 : max (degKm * 2) 0.1 = degKm * 2 :=
    max_eq_left (by linarith [degKm_big, degKm_pos])
  have hd1 : (0.1:ℝ) ≤ degKm * 1 := by linarith [degKm_big]
  have hd2 : (0.1:ℝ) ≤ degKm * 2 := by linarith [degKm_big, degKm_pos]
  have hassign : assignRow true 5 [(1, degKm * 1), (3, degKm * 1)] = [0, 1 / (degKm * 1), 0, 1 / (degKm * 1), 0] := by
    simp [assignRow, rawWeight, List.replicate, hmax1, hmax2, degKm_big, hd1, hd2]
  rw [hassign]
  have hne : degKm ≠ 0 := ne_of_gt degKm_pos
  have hsum : ([0, 1 / (degKm * 1), 0, 1 / (degKm * 1), 0] : List ℝ).sum = 2 / (degKm * 1) := by
    simp [List.sum_cons]
    field_simp
    try ring
    try norm_num
  unfold normalizeRow
  rw [hsum, if_pos (div_pos (by norm_num) (by linarith [degKm_pos]))]
  simp only [List.map_cons, List.map_nil]
  norm_num
  try (repeat' apply And.intro)
  all_goals (field_simp; try ring)

theorem cands9_3 : candidates langs9 3 = [(0, degKm * 3), (1, degKm * 2), (2, degKm * 1), (4, degKm * 1)] := by
  norm_num [candidates, langs9, List.range_succ, hav9]

theorem sort9_3x : List.insertionSort distLe [(0, degKm * 3), (1, degKm * 2), (2, degKm * 1), (4, degKm * 1)] = [(2, degKm * 1), (4, degKm * 1), (1, degKm * 2), (0, degKm * 3)] := by
  norm_num [List.insertionSort, List.orderedInsert, distLe,
    (by nlinarith [degKm_pos] : degKm ≤ degKm * 2),
    (by nlinarith [degKm_pos] : degKm * 2 ≤ degKm * 3),
    (by nlinarith [degKm_pos] : degKm * 3 ≤ degKm * 4),
    (by nlinarith [degKm_pos] : ¬ (degKm * 2 ≤ degKm)),
    (by nlinarith [degKm_pos] : ¬ (degKm * 3 ≤ degKm)),
    (by nlinarith [degKm_pos] : ¬ (degKm * 3 ≤ degKm * 2)),
    (by nlinarith [degKm_pos] : ¬ (degKm * 4 ≤ degKm)),
    (by nlinarith [degKm_pos] : ¬ (degKm * 4 ≤ degKm * 2)),
    (by nlinarith [degKm_pos] : ¬ (degKm * 4 ≤ degKm * 3))]

theorem nbrs9_3 : neighbors langs9 2 3 = [(2, degKm * 1), (4, degKm * 1)] := by
  rw [neighbors, cands9_3, sort9_3x]
  rfl

theorem row9_3 : normalizeRow (assignRow true 5 (neighbors langs9 2 3)) = [0, 0, 1/2, 0, 1/2] := by
  rw [nbrs9_3]
  have hmax1 : max (degKm * 1) 0.1 = degKm * 1 := max_eq_left (by linarith [degKm_big])
  have hmax2 : max (degKm * 2) 0.1 = degKm * 2 :=
    max_eq_left (by linarith [degKm_big, degKm_pos])
  have hd1 : (0.1:ℝ) ≤ degKm * 1 := by linarith [degKm_big]
  have hd2 : (0.1:ℝ) ≤ degKm * 2 := by linarith [degKm_big, degKm_pos]
  have hassign : assignRow true 5 [(2, degKm * 1), (4, degKm * 1)] = [0, 0, 1 / (degKm * 1), 0, 1 / (degKm * 1)] := by
    simp [assignRow, rawWeight, List.replicate, hmax1, hmax2, degKm_big, hd1, hd2]
  rw [hassign]
  have hne : degKm ≠ 0 := ne_of_gt degKm_pos
  have hsum : ([0, 0, 1 / (degKm * 1), 0, 1 / (degKm * 1)] : List ℝ).sum = 2 / (degKm * 1) := by
    simp [List.sum_cons]
    field_simp
    try ring
    try norm_num
  unfold normalizeRow
  rw [hsum, if_pos (div_pos (by norm_num) (by linarith [degKm_pos]))]
  simp only [List.map_cons, List.map_nil]
  norm_num
  try (repeat' apply And.intro)
  all_goals (field_simp; try ring)

theorem cands9_4 : candidates langs9 4 = [(0, degKm * 4), (1, degKm * 3), (2, degKm * 2), (3, degKm * 1)] := by
  norm_num [candidates, langs9, List.range_succ, hav9]

theorem sort9_4x : List.insertionSort distLe [(0, degKm * 4), (1, degKm * 3), (2, degKm * 2), (3, degKm * 1)] = [(3, degKm * 1), (2, degKm * 2), (1, degKm * 3), (0, degKm * 4)] := by
  norm_num [List.insertionSort, List.orderedInsert, distLe,
    (by nlinarith [degKm_pos] : degKm ≤ degKm * 2),
    (by nlinarith [degKm_pos] : degKm * 2 ≤ degKm * 3),
    (by nlinarith [degKm_pos] : degKm * 3 ≤ degKm * 4),
    (by nlinarith [degKm_pos] : ¬ (degKm * 2 ≤ degKm)),
    (by nlinarith [degKm_pos] : ¬ (degKm * 3 ≤ degKm)),
    (by nlinarith [degKm_pos] : ¬ (degKm * 3 ≤ degKm * 2)),
    (by nlinarith [degKm_pos] : ¬ (degKm * 4 ≤ degKm)),
    (by nlinarith [degKm_pos] : ¬ (degKm * 4 ≤ degKm * 2)),
    (by nlinarith [degKm_pos] : ¬ (degKm * 4 ≤ degKm * 3))]

theorem nbrs9_4 : neighbors langs9 2 4 = [(3, degKm * 1), (2, degKm * 2)] := by
  rw [neighbors, cands9_4, sort9_4x]
  rfl

theorem row9_4 : normalizeRow (assignRow true 5 (neighbors langs9 2 4)) = [0, 0, 1/3, 2/3, 0] := by
  rw [nbrs9_4]
  have hmax1 : max (degKm * 1) 0.1 = degKm * 1 := max_eq_left (by linarith [degKm_big])
  have hmax2 : max (degKm * 2) 0.1 = degKm * 2 :=
    max_eq_left (by linarith [degKm_big, degKm_pos])
  have hd1 : (0.1:ℝ) ≤ degKm * 1 := by linarith [degKm_big]
  have hd2 : (0.1:ℝ) ≤ degKm * 2 := by linarith [degKm_big, degKm_pos]
  have hassign : assignRow true 5 [(3, degKm * 1), (2, degKm * 2)] = [0, 0, 1 / (degKm * 2), 1 / (degKm * 1), 0] := by
    simp [assignRow, rawWeight, List.replicate, hmax1, hmax2, degKm_big, hd1, hd2]
  rw [hassign]
  have hne : degKm ≠ 0 := ne_of_gt degKm_pos
  have hsum : ([0, 0, 1 / (degKm * 2), 1 / (degKm * 1), 0] : List ℝ).sum = 3 / (degKm * 2) := by
    simp [List.sum_cons]
    field_simp
    try ring
    try norm_num
  unfold normalizeRow
  rw [hsum, if_pos (div_pos (by norm_num) (by linarith [degKm_pos]))]
  simp only [List.map_cons, List.map_nil]
  norm_num
  try (repeat' apply And.intro)
  all_goals (field_simp; try ring)

theorem W9_eq : compute_spatial_weights langs9 2 true = wmat9 := by
  unfold compute_spatial_weights
  simp only [show langs9.length = 5 from rfl]
  norm_num [List.range_succ, row9_0, row9_1, row9_2, row9_3, row9_4, wmat9]


/-- C9: on the five equatorial points at longitudes 0..4 with `k = 2` and
inverse-distance weighting, the clustered labels `[1,1,1,0,0]` give
Moran's I above 0.3 (in fact 5/12), the interleaved labels `[1,0,1,0,1]`
give a value below `E[I] = -0.25` (in fact -7/9), strictly lower than the
clustered value, on the identical weights matrix. -/
theorem c9_concrete_scenarios :
    0.3 < (calculate_morans_i langs9 valsA (compute_spatial_weights langs9 2 true)).1 ∧
    (calculate_morans_i langs9 valsB (compute_spatial_weights langs9 2 true)).1 ≤ -0.25 ∧
    (calculate_morans_i langs9 valsB (compute_spatial_weights langs9 2 true)).1 <
      (calculate_morans_i langs9 valsA (compute_spatial_weights langs9 2 true)).1 := by
  have hA : (calculate_morans_i langs9 valsA (compute_spatial_weights langs9 2 true)).1 = 5/12 := by
    rw [W9_eq]
    rw [morans_fst _ _ _ (by norm_num [valsA])
      (by norm_num [sumSqDev, deviations, mean, valsA])
      (by norm_num [wTotal, wAt, wmat9, valsA, List.range_succ])]
    norm_num [moransIStat, moranNumerator, wTotal, sumSqDev, deviations, mean,
      dAt, wAt, valsA, wmat9, List.range_succ]
  have hB : (calculate_morans_i langs9 valsB (compute_spatial_weights langs9 2 true)).1 = -7/9 := by
    rw [W9_eq]
    rw [morans_fst _ _ _ (by norm_num [valsB])
      (by norm_num [sumSqDev, deviations, mean, valsB])
      (by norm_num [wTotal, wAt, wmat9, valsB, List.range_succ])]
    norm_num [moransIStat, moranNumerator, wTotal, sumSqDev, deviations, mean,
      dAt, wAt, valsB, wmat9, List.range_succ]
  rw [hA, hB]
  norm_num

end

end Refugia
